import Mathlib

/-!
Verification of the penum-ingress batching / commit-reveal / shuffle pipeline
(`src/main.rs`) against its natural-language specification.

Modelling conventions:
* Bytes are `Nat`, byte strings are `List Nat` (`Bytes`).
* `SystemTime` instants and `Duration`s are `Nat` (arbitrary clock units).
* The cryptographic hash `sha256_hash` is modelled as an explicit parameter
  `hash : Bytes → Bytes`: every definition below is the direct translation of
  the corresponding Rust item with the hash function abstracted; properties
  that depend on collision-freedom of SHA-256 take explicit injectivity /
  output-length hypotheses (the standard cryptographic assumption).
* Randomness (UUIDs, nonces, the wall clock) is passed in as explicit inputs.
* The pseudorandom index stream of `rand::rngs::StdRng` used by
  `SliceRandom::shuffle` is modelled as a parameter
  `r : Bytes → Nat → Nat` (seed and step to raw output); the shuffle reduces
  the raw output modulo the step bound exactly where `gen_index` bounds it.
  All theorems quantify over `r`, hence hold for the actual generator.
* `Vec::drain`, `Mutex`-protected state updates, and the commit ledger become
  explicit state passing.  `std::sync::Mutex` is non-reentrant: acquiring a
  mutex already held by the current thread never returns; this is modelled
  explicitly by `mutexAcquire` where the source re-locks a held mutex.
-/

namespace Penum

/-- Byte strings: each entry stands for one byte of a Rust `Vec<u8>`. -/
abbrev Bytes := List Nat

/-- Transaction envelope containing raw transaction bytes (struct
`TransactionEnvelope`, main.rs lines 11-16). -/
structure TransactionEnvelope where
  tx_bytes : Bytes
  batch_id : String
  envelope_version : Nat
deriving DecidableEq

/-- Constructor `TransactionEnvelope::new` (main.rs lines 19-25). -/
def TransactionEnvelope.new (tx_bytes : Bytes) (batch_id : String) :
    TransactionEnvelope :=
  { tx_bytes := tx_bytes, batch_id := batch_id, envelope_version := 1 }

/-- Lexicographic comparison on byte strings: the `Ord` instance Rust
derives for `Vec<u8>` (slice comparison), as a Boolean relation. -/
def lexLeB : Bytes → Bytes → Bool
  | [], _ => true
  | _ :: _, [] => false
  | a :: as, b :: bs => if a < b then true else if a = b then lexLeB as bs else false

/-- Rust's stable `Vec::sort` on `Vec<Vec<u8>>` (lexicographic `Ord`), as
used on the per-transaction hash list in `TransactionBatch::new` (main.rs
line 48).  On a totally ordered key type any correct sort returns the one
sorted permutation of its input, so `insertionSort` over the lexicographic
order computes the same function as Rust's stable mergesort. -/
def sortHashes (hs : List Bytes) : List Bytes :=
  List.insertionSort (fun a b => lexLeB a b = true) hs

/-- Commitment preimage built in `TransactionBatch::new` (main.rs lines
44-54) and rebuilt identically in `verify_reveal` (main.rs lines 182-193):
the concatenation of the sorted per-transaction hashes with the nonce
appended last. -/
def commitmentInput (hash : Bytes → Bytes) (transactions : List TransactionEnvelope)
    (nonce : Bytes) : Bytes :=
  (sortHashes (transactions.map (fun tx => hash tx.tx_bytes))).flatten ++ nonce

/-- Commitment computation `SHA256(concat(sorted(tx_hashes) || batch_nonce))`
(main.rs lines 43-56); this is the spec's `CommitmentScheme`. -/
def commitmentScheme (hash : Bytes → Bytes) (transactions : List TransactionEnvelope)
    (nonce : Bytes) : Bytes :=
  hash (commitmentInput hash transactions nonce)

/-- Batch structure for grouping transactions (struct `TransactionBatch`,
main.rs lines 29-36). -/
structure TransactionBatch where
  id : String
  transactions : List TransactionEnvelope
  commitment : Bytes
  timestamp : Nat
  nonce : Bytes
deriving DecidableEq

/-- Constructor `TransactionBatch::new` (main.rs lines 38-65).  The freshly
generated UUID `id`, random `nonce` and clock reading `timestamp` are passed
in explicitly; the transactions are stored in the order received (the shuffle
happens later, in `create_batch`). -/
def TransactionBatch.new (hash : Bytes → Bytes) (id : String) (nonce : Bytes)
    (timestamp : Nat) (transactions : List TransactionEnvelope) : TransactionBatch :=
  { id := id
    transactions := transactions
    commitment := commitmentScheme hash transactions nonce
    timestamp := timestamp
    nonce := nonce }

/-- Bytes of a string, as `str::as_bytes` yields them (the batch ids fed to
the seed derivation are ASCII UUID strings, for which the code points and
the UTF-8 bytes coincide). -/
def stringBytes (s : String) : Bytes :=
  s.data.map (fun c => c.toNat)

/-- Helper `create_seed_from_batch_id` (main.rs lines 146-156): a 32-byte
seed that starts as zeros and receives the first `min 32 (hash id).length`
bytes of the hash of the batch id. -/
def create_seed_from_batch_id (hash : Bytes → Bytes) (batch_id : String) : Bytes :=
  let h := hash (stringBytes batch_id)
  (List.range 32).map (fun i => if hi : i < h.length then h.get ⟨i, hi⟩ else 0)

/-- In-place swap of two positions of a vector (`slice::swap` as invoked by
`SliceRandom::shuffle`); out-of-range indices leave the list unchanged
(`shuffle` only ever produces in-range indices). -/
def listSwap (l : List α) (i j : Nat) : List α :=
  match l.get? i, l.get? j with
  | some a, some b => (l.set i b).set j a
  | _, _ => l

/-- Loop of `SliceRandom::shuffle` (rand 0.8): for `i` from `len - 1` down to
`1`, swap position `i` with a generated index in `0 ..= i`.  The first
argument is the remaining loop counter (the current value of `i`). -/
def fyAux (r : Bytes → Nat → Nat) (seed : Bytes) : Nat → List α → List α
  | 0, l => l
  | k + 1, l => fyAux r seed k (listSwap l (k + 1) (r seed (k + 1) % (k + 2)))

/-- Seeded Fisher-Yates shuffle `batch.transactions.shuffle(&mut rng)` with
`rng = StdRng::from_seed(seed)` (main.rs lines 138-139). -/
def fisherYates (r : Bytes → Nat → Nat) (seed : Bytes) (l : List α) : List α :=
  fyAux r seed (l.length - 1) l

/-- State of the batching engine (struct `BatchingEngine`, main.rs lines
83-88): configuration plus the two mutex-protected cells
`pending_transactions` and `last_batch_time`. -/
structure BatchingEngine where
  max_batch_size : Nat
  batch_time_window : Nat
  pending_transactions : List TransactionEnvelope
  last_batch_time : Nat
deriving DecidableEq

/-- Internal seal `BatchingEngine::create_batch` (main.rs lines 121-142),
with the UUID `id`, random `nonce` and the clock reading `now` supplied
explicitly: if pending is empty, return `None` and leave the state alone;
otherwise drain all pending transactions, set `last_batch_time` to now,
build the batch and shuffle its transactions with a seed derived from the
batch id.  Returns the optional batch and the engine state afterwards. -/
def BatchingEngine.create_batch (hash : Bytes → Bytes) (r : Bytes → Nat → Nat)
    (id : String) (nonce : Bytes) (now : Nat) (s : BatchingEngine) :
    Option TransactionBatch × BatchingEngine :=
  if s.pending_transactions = [] then
    (none, s)
  else
    let transactions := s.pending_transactions
    let batch := TransactionBatch.new hash id nonce now transactions
    let seed := create_seed_from_batch_id hash batch.id
    let shuffled := { batch with transactions := fisherYates r seed batch.transactions }
    (some shuffled,
     { s with pending_transactions := [], last_batch_time := now })

/-- Time trigger `BatchingEngine::check_time_window` (main.rs lines 110-119):
if the elapsed time since `last_batch_time` is at least `batch_time_window`,
run `create_batch`; otherwise return `None` and change nothing.  The two
clock readings of the source (line 111 and line 132) are taken to be the
same instant `now`.  Faithfulness of `now - last_batch_time` to
`duration_since(..).unwrap()` requires `last_batch_time ≤ now` (otherwise
the source panics); theorems carry that hypothesis. -/
def BatchingEngine.check_time_window (hash : Bytes → Bytes) (r : Bytes → Nat → Nat)
    (id : String) (nonce : Bytes) (now : Nat) (s : BatchingEngine) :
    Option TransactionBatch × BatchingEngine :=
  if s.batch_time_window ≤ now - s.last_batch_time then
    s.create_batch hash r id nonce now
  else
    (none, s)

/-- Result of running an operation whose critical sections are modelled with
explicit lock bookkeeping: either the operation completes with a value, or it
attempts to re-acquire a mutex its own thread already holds and never
returns. -/
inductive LockOutcome (α : Type) where
  | deadlock : LockOutcome α
  | ok : α → LockOutcome α
deriving DecidableEq

/-- Acquisition of a `std::sync::Mutex`: if the calling thread already holds
this mutex, `lock()` never returns (the behaviour is documented as panic or
deadlock; either way the guarded continuation is never reached). -/
def mutexAcquire (alreadyHeld : Bool) (guarded : α) : LockOutcome α :=
  if alreadyHeld then LockOutcome.deadlock else LockOutcome.ok guarded

/-- Entry into `create_batch` with lock bookkeeping: the body of
`create_batch` runs entirely under the `pending_transactions` mutex, which it
acquires on its first line (main.rs line 122).  `heldPending` records whether
the calling thread already holds that mutex at the call site. -/
def BatchingEngine.create_batch_entry (heldPending : Bool) (hash : Bytes → Bytes)
    (r : Bytes → Nat → Nat) (id : String) (nonce : Bytes) (now : Nat)
    (s : BatchingEngine) : LockOutcome (Option TransactionBatch × BatchingEngine) :=
  mutexAcquire heldPending (s.create_batch hash r id nonce now)

/-- Submission `BatchingEngine::add_transaction` (main.rs lines 100-108): the
function acquires the `pending_transactions` mutex, pushes the envelope, and
— still inside the scope of that mutex guard — calls `create_batch` when the
pending length has reached `max_batch_size`, discarding its return value.
`id`, `nonce` and `now` are the inputs the nested seal would draw. -/
def BatchingEngine.add_transaction (hash : Bytes → Bytes) (r : Bytes → Nat → Nat)
    (id : String) (nonce : Bytes) (now : Nat) (tx : TransactionEnvelope)
    (s : BatchingEngine) : LockOutcome BatchingEngine :=
  if s.max_batch_size ≤ (s.pending_transactions ++ [tx]).length then
    match BatchingEngine.create_batch_entry true hash r id nonce now
        { s with pending_transactions := s.pending_transactions ++ [tx] } with
    | LockOutcome.deadlock => LockOutcome.deadlock
    | LockOutcome.ok (_batch, s'') => LockOutcome.ok s''
  else
    LockOutcome.ok { s with pending_transactions := s.pending_transactions ++ [tx] }

/-- Intended mutex semantics of `add_transaction`: the same operation under
the reading the specification prescribes (critical sections serialize, the
re-entrant acquisition succeeds as if the mutex domain were a single one).
Identical to `BatchingEngine.add_transaction` except that the nested
`create_batch` call runs; its returned batch is still discarded (only the
second component of the pair is kept). -/
def BatchingEngine.add_transaction_intended (hash : Bytes → Bytes)
    (r : Bytes → Nat → Nat) (id : String) (nonce : Bytes) (now : Nat)
    (tx : TransactionEnvelope) (s : BatchingEngine) : BatchingEngine :=
  if s.max_batch_size ≤ (s.pending_transactions ++ [tx]).length then
    (BatchingEngine.create_batch hash r id nonce now
      { s with pending_transactions := s.pending_transactions ++ [tx] }).2
  else
    { s with pending_transactions := s.pending_transactions ++ [tx] }

/-- Ledger append `CommitRevealPipeline::commit_batch` (main.rs lines
170-173): push the pair `(batch.id, batch.commitment)`. -/
def commit_batch (ledger : List (String × Bytes)) (batch : TransactionBatch) :
    List (String × Bytes) :=
  ledger ++ [(batch.id, batch.commitment)]

/-- Verification `CommitRevealPipeline::verify_reveal` (main.rs lines
175-202): scan the ledger in insertion order for the first entry whose id
matches, recompute the commitment over the batch's actual transactions and
nonce, and compare it with the stored value; if no entry matches, return
`false`. -/
def verify_reveal (hash : Bytes → Bytes) :
    List (String × Bytes) → TransactionBatch → Bool
  | [], _ => false
  | (batch_id, commitment) :: rest, batch =>
    if batch_id = batch.id then
      decide (commitmentScheme hash batch.transactions batch.nonce = commitment)
    else
      verify_reveal hash rest batch

/-- State of the whole ingress service (struct `PenumIngress`, main.rs lines
278-283), with the commit-reveal ledger inlined and the observable effects of
`RelayForwarder::forward_batch` and of the reveal-verification log captured
as ghost lists (`forwarded`, `verifications`).  `batch_sizes` and
`forwarding_latencies` are the `MetricsCollector` vectors. -/
structure PenumIngress where
  engine : BatchingEngine
  commitments : List (String × Bytes)
  forwarded : List TransactionBatch
  verifications : List (String × Bool)
  batch_sizes : List Nat
  forwarding_latencies : List Nat
deriving DecidableEq

/-- Outcome of `PenumIngress::submit_transaction`: synchronous rejection with
an error message (state unchanged, carried for inspection), a completed
submission with the success message, or a thread that never returns because
the size trigger re-locked the pending mutex. -/
inductive SubmitOutcome where
  | rejected : String → PenumIngress → SubmitOutcome
  | deadlock : SubmitOutcome
  | accepted : String → PenumIngress → SubmitOutcome
deriving DecidableEq

/-- Submission entry point `PenumIngress::submit_transaction` (main.rs lines
299-316): reject empty payloads synchronously; otherwise wrap the payload in
an envelope (whose `batch_id` field gets a fresh UUID `envId`), hand it to
`add_transaction`, and record the resulting pending length as a metric.
`sealId`, `sealNonce` and `now` are the draws a size-triggered seal would
use. -/
def PenumIngress.submit_transaction (hash : Bytes → Bytes) (r : Bytes → Nat → Nat)
    (envId sealId : String) (sealNonce : Bytes) (now : Nat) (tx_bytes : Bytes)
    (s : PenumIngress) : SubmitOutcome :=
  if tx_bytes = [] then
    SubmitOutcome.rejected "Transaction bytes cannot be empty" s
  else
    match BatchingEngine.add_transaction hash r sealId sealNonce now
        (TransactionEnvelope.new tx_bytes envId) s.engine with
    | LockOutcome.deadlock => SubmitOutcome.deadlock
    | LockOutcome.ok engine' =>
      SubmitOutcome.accepted "Transaction accepted for batching"
        { s with
          engine := engine'
          batch_sizes := s.batch_sizes ++ [engine'.pending_transactions.length] }

/-- Per-batch pipeline `PenumIngress::process_batch` (main.rs lines 325-341):
commit the batch, forward it to the relays, record metrics, then verify the
reveal and log the result.  The forwarding latency is an external
measurement, passed in. -/
def PenumIngress.process_batch (hash : Bytes → Bytes) (latency : Nat)
    (batch : TransactionBatch) (s : PenumIngress) : PenumIngress :=
  let committed := commit_batch s.commitments batch
  let is_valid := verify_reveal hash committed batch
  { s with
    commitments := committed
    forwarded := s.forwarded ++ [batch]
    batch_sizes := s.batch_sizes ++ [batch.transactions.length]
    forwarding_latencies := s.forwarding_latencies ++ [latency]
    verifications := s.verifications ++ [(batch.id, is_valid)] }

/-- Timer path `PenumIngress::process_batches` (main.rs lines 318-323): run
the time trigger; if it seals a batch, push it through `process_batch`. -/
def PenumIngress.process_batches (hash : Bytes → Bytes) (r : Bytes → Nat → Nat)
    (id : String) (nonce : Bytes) (now : Nat) (latency : Nat) (s : PenumIngress) :
    PenumIngress :=
  match s.engine.check_time_window hash r id nonce now with
  | (some batch, engine') =>
    PenumIngress.process_batch hash latency batch { s with engine := engine' }
  | (none, engine') => { s with engine := engine' }

/-- Intended-semantics variant of `submit_transaction` built on
`add_transaction_intended`; used to express what happens to a size-triggered
batch under the specification's single-lock reading. -/
def PenumIngress.submit_transaction_intended (hash : Bytes → Bytes)
    (r : Bytes → Nat → Nat) (envId sealId : String) (sealNonce : Bytes) (now : Nat)
    (tx_bytes : Bytes) (s : PenumIngress) : Except String (String × PenumIngress) :=
  if tx_bytes = [] then
    Except.error "Transaction bytes cannot be empty"
  else
    Except.ok ("Transaction accepted for batching",
      { s with
        engine := BatchingEngine.add_transaction_intended hash r sealId sealNonce now
          (TransactionEnvelope.new tx_bytes envId) s.engine
        batch_sizes := s.batch_sizes ++
          [(BatchingEngine.add_transaction_intended hash r sealId sealNonce now
            (TransactionEnvelope.new tx_bytes envId)
            s.engine).pending_transactions.length] })

/-- One client-visible operation on the running service: a submission (with
the UUIDs and clock values that call would draw) or one invocation of the
periodic `process_batches` actor. -/
inductive IngressOp where
  | submit : (envId sealId : String) → (sealNonce : Bytes) → (now : Nat) →
      (tx_bytes : Bytes) → IngressOp
  | poll : (id : String) → (nonce : Bytes) → (now : Nat) → (latency : Nat) → IngressOp

/-- Execution of a sequence of operations against the service, with lock
bookkeeping: returns the number of submissions that returned `Ok`, the final
list of sealed-and-processed batches, and whether the run wedged on a mutex
self-acquisition (after which the pending mutex is never released, so no
later operation can complete and no further batch can ever be sealed). -/
def runOps (hash : Bytes → Bytes) (r : Bytes → Nat → Nat) :
    List IngressOp → PenumIngress → Nat × List TransactionBatch × Bool
  | [], s => (0, s.forwarded, false)
  | op :: rest, s =>
    match op with
    | IngressOp.submit envId sealId sealNonce now tx_bytes =>
      match s.submit_transaction hash r envId sealId sealNonce now tx_bytes with
      | SubmitOutcome.deadlock => (0, s.forwarded, true)
      | SubmitOutcome.rejected _ s' => runOps hash r rest s'
      | SubmitOutcome.accepted _ s' =>
        let (n, batches, stuck) := runOps hash r rest s'
        (n + 1, batches, stuck)
    | IngressOp.poll id nonce now latency =>
      runOps hash r rest (s.process_batches hash r id nonce now latency)

/-- Mutation of one byte of one transaction payload: the envelope with byte
`j` of its payload replaced by `c`. -/
def setPayloadByte (tx : TransactionEnvelope) (j c : Nat) : TransactionEnvelope :=
  { tx with tx_bytes := tx.tx_bytes.set j c }

/-- A batch with byte `j` of the payload of transaction `i` replaced by `c`
(the tampering scenario of the reveal-verification round-trip property). -/
def mutatePayloadByte (b : TransactionBatch) (i j c : Nat) : TransactionBatch :=
  match b.transactions.get? i with
  | some tx => { b with transactions := b.transactions.set i (setPayloadByte tx j c) }
  | none => b

/-- Statement of claim C7 read literally, i.e. with a strict reading of
"the wall-clock time since last_seal_time exceeds batch_time_window": the
time trigger seals exactly when `batch_time_window < now - last_batch_time`
and pending is non-empty, and otherwise has no effect at all. -/
def claim7Statement (hash : Bytes → Bytes) (r : Bytes → Nat → Nat) : Prop :=
  ∀ (id : String) (nonce : Bytes) (now : Nat) (s : BatchingEngine),
    s.last_batch_time ≤ now →
    ((s.batch_time_window < now - s.last_batch_time ∧ s.pending_transactions ≠ [] →
      ∃ b, (s.check_time_window hash r id nonce now).1 = some b
        ∧ List.Perm b.transactions s.pending_transactions
        ∧ (s.check_time_window hash r id nonce now).2
            = { s with pending_transactions := [], last_batch_time := now })
     ∧ (¬ (s.batch_time_window < now - s.last_batch_time
            ∧ s.pending_transactions ≠ []) →
        s.check_time_window hash r id nonce now = (none, s)))

/-! ### Concrete instances used by witnesses and counterexamples -/

/-- A cheap stand-in for the abstract hash parameter where no collision
property is needed. -/
def hashW : Bytes → Bytes := fun l => [l.length]

/-- A concrete pseudorandom index stream. -/
def rW : Bytes → Nat → Nat := fun _ _ => 0

/-- An injective encoding of byte strings into one natural number. -/
def encodeBytes (l : Bytes) : Nat :=
  l.foldr (fun a acc => Nat.pair a acc + 1) 0

/-- An injective hash function with fixed output length, witnessing that the
collision-freedom hypotheses of the binding theorems are satisfiable (bytes
are modelled as unbounded `Nat`, so such a function exists). -/
def injHash (l : Bytes) : Bytes :=
  [encodeBytes l]

/-- Sample envelope. -/
def envW1 : TransactionEnvelope := TransactionEnvelope.new [1] "e1"

/-- Second sample envelope. -/
def envW2 : TransactionEnvelope := TransactionEnvelope.new [2] "e2"

/-- Placeholder batch for `Option.getD` extractions. -/
def batchDflt : TransactionBatch :=
  { id := "", transactions := [], commitment := [], timestamp := 0, nonce := [] }

/-- Engine with `max_batch_size = 1` and empty pending list. -/
def engC2 : BatchingEngine :=
  { max_batch_size := 1, batch_time_window := 5, pending_transactions := [],
    last_batch_time := 0 }

/-- Engine with one pending envelope, window 5, last seal at 0. -/
def engC7 : BatchingEngine :=
  { max_batch_size := 10, batch_time_window := 5, pending_transactions := [envW1],
    last_batch_time := 0 }

/-- Engine with two pending envelopes. -/
def engW4 : BatchingEngine :=
  { max_batch_size := 10, batch_time_window := 5,
    pending_transactions := [envW1, envW2], last_batch_time := 0 }

/-- Engine with the same pending envelopes as `engW4` but a different
`last_batch_time`. -/
def engW10 : BatchingEngine :=
  { max_batch_size := 10, batch_time_window := 5,
    pending_transactions := [envW1, envW2], last_batch_time := 3 }

/-- The batch sealed from `engW4` under the injective hash. -/
def bW4 : TransactionBatch :=
  ((engW4.create_batch injHash rW "b0" [5] 7).1).getD batchDflt

/-- The batch sealed from `engW4` under the cheap hash. -/
def bW5 : TransactionBatch :=
  ((engW4.create_batch hashW rW "b0" [5] 7).1).getD batchDflt

/-- The batch sealed from `engW10` with a different nonce and clock. -/
def bW10 : TransactionBatch :=
  ((engW10.create_batch hashW rW "b0" [6] 8).1).getD batchDflt

/-- Fresh ingress service with `max_batch_size = 2`. -/
def ingC1 : PenumIngress :=
  { engine := { max_batch_size := 2, batch_time_window := 5,
                pending_transactions := [], last_batch_time := 0 }
    commitments := [], forwarded := [], verifications := []
    batch_sizes := [], forwarding_latencies := [] }

/-- Ingress service one submission away from its size threshold, with one
unrelated ledger entry. -/
def ingC3 : PenumIngress :=
  { engine := { max_batch_size := 2, batch_time_window := 5,
                pending_transactions := [envW1], last_batch_time := 0 }
    commitments := [("x", [9])], forwarded := [], verifications := []
    batch_sizes := [], forwarding_latencies := [] }

/-- State carried by a non-deadlocked submission outcome. -/
def submitResultState (o : SubmitOutcome) (dflt : PenumIngress) : PenumIngress :=
  match o with
  | SubmitOutcome.rejected _ s => s
  | SubmitOutcome.deadlock => dflt
  | SubmitOutcome.accepted _ s => s

/-- The state after an intended-semantics submission into `ingC3` that hits
the size threshold. -/
def ingC3' : PenumIngress :=
  (((ingC3.submit_transaction_intended hashW rW "e9" "s9" [7] 3 [3]).toOption).map
    Prod.snd).getD ingC3

/-- The batch the time trigger seals out of `ingC3`. -/
def bC3 : TransactionBatch :=
  ((ingC3.engine.check_time_window hashW rW "b1" [6] 9).1).getD batchDflt

/-- Ingress service far from its size threshold. -/
def ingC9 : PenumIngress :=
  { engine := { max_batch_size := 5, batch_time_window := 5,
                pending_transactions := [envW1], last_batch_time := 0 }
    commitments := [], forwarded := [], verifications := []
    batch_sizes := [], forwarding_latencies := [] }

/-- The state after a successful submission into `ingC9`. -/
def ingC9' : PenumIngress :=
  submitResultState (ingC9.submit_transaction hashW rW "e5" "s5" [7] 1 [5]) ingC9

/-- A batch whose id was never recorded in any ledger used alongside it. -/
def bC8 : TransactionBatch :=
  { id := "b", transactions := [envW1], commitment := [1, 2], timestamp := 0,
    nonce := [3] }

/-! ### Helper lemmas -/

/-- Counting elements after `List.set`, in subtraction-free form. -/
theorem count_set_add [DecidableEq α] {l : List α} {i : Nat} (b a : α)
    (hi : i < l.length) :
    (l.set i b).count a + (if l.get ⟨i, hi⟩ = a then 1 else 0)
      = l.count a + (if b = a then 1 else 0) := by
  have hdecomp : l = l.take i ++ l.get ⟨i, hi⟩ :: l.drop (i + 1) := by
    conv_lhs => rw [← List.take_append_drop i l]
    congr 1
    rw [List.get_eq_getElem, List.getElem_cons_drop]
  rw [List.set_eq_take_append_cons_drop, if_pos hi]
  conv_rhs => rw [hdecomp]
  simp only [List.count_append, List.count_cons]
  by_cases hba : b = a <;> by_cases hla : l.get ⟨i, hi⟩ = a <;>
    simp [hba, hla] <;> omega

/-- Swapping two positions of a list is a permutation. -/
theorem listSwap_perm [DecidableEq α] (l : List α) (i j : Nat) :
    List.Perm (listSwap l i j) l := by
  unfold listSwap
  cases hgi : l.get? i with
  | none => exact List.Perm.refl l
  | some a =>
    cases hgj : l.get? j with
    | none => exact List.Perm.refl l
    | some b =>
      have hi : i < l.length := by
        by_contra hlt
        rw [List.get?_eq_none.2 (Nat.le_of_not_lt hlt)] at hgi
        exact Option.noConfusion hgi
      have hj : j < l.length := by
        by_contra hlt
        rw [List.get?_eq_none.2 (Nat.le_of_not_lt hlt)] at hgj
        exact Option.noConfusion hgj
      have ha : l.get ⟨i, hi⟩ = a :=
        Option.some.inj ((List.get?_eq_get hi).symm.trans hgi)
      have hb : l.get ⟨j, hj⟩ = b :=
        Option.some.inj ((List.get?_eq_get hj).symm.trans hgj)
      rw [List.perm_iff_count]
      intro x
      have hi' : i < (l.set i b).length := by simpa using hi
      have h1 := count_set_add (α := α) a x (l := l.set i b) (i := j) (by simpa using hj)
      have h2 := count_set_add (α := α) b x (l := l) (i := i) hi
      by_cases hij : i = j
      · subst hij
        have hset : (l.set i b).get ⟨i, hi'⟩ = b := by
          simp [List.get_eq_getElem]
        rw [hset] at h1
        rw [ha] at h2
        have hab : a = b := by rw [← ha, ← hb]
        subst hab
        by_cases h3 : a = x <;> simp [h3] at h1 h2 ⊢ <;> omega
      · have hset : (l.set i b).get ⟨j, by simpa using hj⟩ = l.get ⟨j, hj⟩ := by
          simp [List.get_eq_getElem, List.getElem_set_ne hij]
        rw [hset, hb] at h1
        rw [ha] at h2
        by_cases h3 : a = x <;> by_cases h4 : b = x <;>
          simp [h3, h4] at h1 h2 ⊢ <;> omega

/-- Every pass of the shuffle loop permutes the list. -/
theorem fyAux_perm [DecidableEq α] (r : Bytes → Nat → Nat) (seed : Bytes) :
    ∀ (k : Nat) (l : List α), List.Perm (fyAux r seed k l) l
  | 0, l => List.Perm.refl l
  | k + 1, l => by
    unfold fyAux
    exact (fyAux_perm r seed k _).trans (listSwap_perm l (k + 1) _)

/-- The seeded shuffle produces a permutation of its input. -/
theorem fisherYates_perm [DecidableEq α] (r : Bytes → Nat → Nat) (seed : Bytes)
    (l : List α) : List.Perm (fisherYates r seed l) l :=
  fyAux_perm r seed (l.length - 1) l

/-- Transitivity of the lexicographic comparison. -/
theorem lexLeB_trans : ∀ (a b c : Bytes), lexLeB a b = true → lexLeB b c = true →
    lexLeB a c = true
  | [], _, _, _, _ => rfl
  | _ :: _, [], _, hab, _ => by simp [lexLeB] at hab
  | _ :: _, _ :: _, [], _, hbc => by simp [lexLeB] at hbc
  | x :: xs, y :: ys, z :: zs, hab, hbc => by
    simp only [lexLeB] at hab hbc ⊢
    rcases Nat.lt_trichotomy x y with hxy | hxy | hxy
    · rcases Nat.lt_trichotomy y z with hyz | hyz | hyz
      · rw [if_pos (Nat.lt_trans hxy hyz)]
      · rw [if_pos (hyz ▸ hxy)]
      · rw [if_neg (by omega : ¬ y < z), if_neg (by omega : ¬ y = z)] at hbc
        exact absurd hbc (by simp)
    · subst hxy
      rw [if_neg (Nat.lt_irrefl x), if_pos rfl] at hab
      rcases Nat.lt_trichotomy x z with hxz | hxz | hxz
      · rw [if_pos hxz]
      · subst hxz
        rw [if_neg (Nat.lt_irrefl x), if_pos rfl] at hbc ⊢
        exact lexLeB_trans xs ys zs hab hbc
      · rw [if_neg (by omega : ¬ x < z), if_neg (by omega : ¬ x = z)] at hbc
        exact absurd hbc (by simp)
    · rw [if_neg (by omega : ¬ x < y), if_neg (by omega : ¬ x = y)] at hab
      exact absurd hab (by simp)

/-- Totality of the lexicographic comparison. -/
theorem lexLeB_total : ∀ (a b : Bytes), lexLeB a b = true ∨ lexLeB b a = true
  | [], _ => Or.inl rfl
  | _ :: _, [] => Or.inr rfl
  | x :: xs, y :: ys => by
    simp only [lexLeB]
    rcases Nat.lt_trichotomy x y with h | h | h
    · exact Or.inl (by rw [if_pos h])
    · subst h
      rw [if_neg (Nat.lt_irrefl x), if_pos rfl, if_neg (Nat.lt_irrefl x), if_pos rfl]
      exact lexLeB_total xs ys
    · exact Or.inr (by rw [if_pos h])

/-- Antisymmetry of the lexicographic comparison. -/
theorem lexLeB_antisymm : ∀ {a b : Bytes}, lexLeB a b = true → lexLeB b a = true →
    a = b
  | [], [], _, _ => rfl
  | [], _ :: _, _, hba => by simp [lexLeB] at hba
  | _ :: _, [], hab, _ => by simp [lexLeB] at hab
  | x :: xs, y :: ys, hab, hba => by
    simp only [lexLeB] at hab hba
    rcases Nat.lt_trichotomy x y with h | h | h
    · rw [if_neg (by omega : ¬ y < x), if_neg (by omega : ¬ y = x)] at hba
      exact absurd hba (by simp)
    · subst h
      rw [if_neg (Nat.lt_irrefl x), if_pos rfl] at hab hba
      rw [lexLeB_antisymm hab hba]
    · rw [if_neg (by omega : ¬ x < y), if_neg (by omega : ¬ x = y)] at hab
      exact absurd hab (by simp)

instance : IsTrans Bytes (fun a b => lexLeB a b = true) :=
  ⟨lexLeB_trans⟩

instance : IsTotal Bytes (fun a b => lexLeB a b = true) :=
  ⟨lexLeB_total⟩

instance : IsAntisymm Bytes (fun a b => lexLeB a b = true) :=
  ⟨fun _ _ h1 h2 => lexLeB_antisymm h1 h2⟩

/-- The sorted hash list is a permutation of the input hash list. -/
theorem sortHashes_perm (hs : List Bytes) : List.Perm (sortHashes hs) hs :=
  List.perm_insertionSort (fun a b => lexLeB a b = true) hs

/-- The sorted hash list is sorted for the lexicographic order. -/
theorem sortHashes_sorted (hs : List Bytes) :
    (sortHashes hs).Sorted (fun a b => lexLeB a b = true) :=
  List.sorted_insertionSort (fun a b => lexLeB a b = true) hs

/-- Lists equal as multisets sort to the same list. -/
theorem sortHashes_eq_of_perm {hs hs' : List Bytes} (h : List.Perm hs hs') :
    sortHashes hs = sortHashes hs' :=
  List.eq_of_perm_of_sorted
    ((sortHashes_perm hs).trans (h.trans (sortHashes_perm hs').symm))
    (sortHashes_sorted hs) (sortHashes_sorted hs')

/-- Conversely, equal sorted hash lists force equal multisets. -/
theorem perm_of_sortHashes_eq {hs hs' : List Bytes}
    (h : sortHashes hs = sortHashes hs') : List.Perm hs hs' :=
  ((sortHashes_perm hs).symm.trans (h ▸ List.Perm.refl (sortHashes hs))).trans
    (sortHashes_perm hs')

/-- The commitment preimage, hence the commitment, only depends on the
multiset of transactions: permuting the transaction list changes nothing
(main.rs line 48 sorts the per-transaction hashes before concatenation). -/
theorem commitmentInput_perm (hash : Bytes → Bytes)
    {ts ts' : List TransactionEnvelope} (h : List.Perm ts ts') (nonce : Bytes) :
    commitmentInput hash ts nonce = commitmentInput hash ts' nonce := by
  unfold commitmentInput
  rw [sortHashes_eq_of_perm (h.map (fun tx => hash tx.tx_bytes))]

/-- Order-independence of the commitment itself. -/
theorem commitmentScheme_perm (hash : Bytes → Bytes)
    {ts ts' : List TransactionEnvelope} (h : List.Perm ts ts') (nonce : Bytes) :
    commitmentScheme hash ts nonce = commitmentScheme hash ts' nonce := by
  unfold commitmentScheme
  rw [commitmentInput_perm hash h nonce]

/-- A non-matching scan prefix is skipped by `verify_reveal`. -/
theorem verify_reveal_of_no_entry (hash : Bytes → Bytes) :
    ∀ (ledger : List (String × Bytes)) (batch : TransactionBatch),
      (∀ p ∈ ledger, p.1 ≠ batch.id) → verify_reveal hash ledger batch = false
  | [], _, _ => rfl
  | (bid, c) :: rest, batch, h => by
    have hne : bid ≠ batch.id := h (bid, c) (List.mem_cons_self _ _)
    simp only [verify_reveal, if_neg hne]
    exact verify_reveal_of_no_entry hash rest batch
      (fun p hp => h p (List.mem_cons_of_mem _ hp))

/-- Scanning a ledger whose only matching entry is the appended one reduces
`verify_reveal` to the recompute-and-compare step. -/
theorem verify_reveal_append (hash : Bytes → Bytes) :
    ∀ (ledger : List (String × Bytes)) (batch : TransactionBatch) (c : Bytes),
      (∀ p ∈ ledger, p.1 ≠ batch.id) →
      verify_reveal hash (ledger ++ [(batch.id, c)]) batch
        = decide (commitmentScheme hash batch.transactions batch.nonce = c)
  | [], batch, c, _ => by simp [verify_reveal]
  | (bid, c') :: rest, batch, c, h => by
    have hne : bid ≠ batch.id := h (bid, c') (List.mem_cons_self _ _)
    simp only [List.cons_append, verify_reveal, if_neg hne]
    exact verify_reveal_append hash rest batch c
      (fun p hp => h p (List.mem_cons_of_mem _ hp))

/-- Concatenation is injective on lists of blocks of one fixed positive
length (the per-transaction hashes all have length 32). -/
theorem flatten_inj_of_length {n : Nat} (hn : 0 < n) :
    ∀ {l l' : List Bytes}, (∀ x ∈ l, x.length = n) → (∀ x ∈ l', x.length = n) →
      l.flatten = l'.flatten → l = l'
  | [], [], _, _, _ => rfl
  | [], x :: t, _, h', heq => by
    exfalso
    have hx : x.length = n := h' x (List.mem_cons_self _ _)
    have : ([] : Bytes).length = (x :: t).flatten.length := by rw [← heq]; rfl
    simp [List.length_flatten, hx] at this
    omega
  | x :: t, [], h, _, heq => by
    exfalso
    have hx : x.length = n := h x (List.mem_cons_self _ _)
    have : (x :: t).flatten.length = ([] : Bytes).length := by rw [heq]; rfl
    simp [List.length_flatten, hx] at this
    omega
  | x :: t, x' :: t', h, h', heq => by
    simp only [List.flatten_cons] at heq
    have hx : x.length = n := h x (List.mem_cons_self _ _)
    have hx' : x'.length = n := h' x' (List.mem_cons_self _ _)
    obtain ⟨h1, h2⟩ := List.append_inj heq (hx.trans hx'.symm)
    have := flatten_inj_of_length hn
      (fun y hy => h y (List.mem_cons_of_mem _ hy))
      (fun y hy => h' y (List.mem_cons_of_mem _ hy)) h2
    rw [h1, this]

/-- Every block of the sorted per-transaction hash list is a hash output. -/
theorem mem_sortHashes_map {hash : Bytes → Bytes} {ts : List TransactionEnvelope}
    {x : Bytes} (hx : x ∈ sortHashes (ts.map (fun tx => hash tx.tx_bytes))) :
    ∃ tx : TransactionEnvelope, x = hash tx.tx_bytes := by
  have hx' : x ∈ ts.map (fun tx => hash tx.tx_bytes) :=
    (sortHashes_perm _).mem_iff.1 hx
  obtain ⟨tx, _, htx⟩ := List.mem_map.1 hx'
  exact ⟨tx, htx.symm⟩

/-- Equal commitment preimages with equal nonces force equal multisets of
per-transaction hashes, provided all hash outputs have one fixed positive
length (for SHA-256, 32). -/
theorem perm_of_commitmentInput_eq (hash : Bytes → Bytes) {n : Nat} (hn : 0 < n)
    (hlen : ∀ x, (hash x).length = n) {ts ts' : List TransactionEnvelope}
    {nonce : Bytes}
    (heq : commitmentInput hash ts nonce = commitmentInput hash ts' nonce) :
    List.Perm (ts.map (fun tx => hash tx.tx_bytes))
      (ts'.map (fun tx => hash tx.tx_bytes)) := by
  unfold commitmentInput at heq
  have hflat := List.append_cancel_right heq
  have hsorted := flatten_inj_of_length (n := n) hn
    (fun x hx => by obtain ⟨tx, htx⟩ := mem_sortHashes_map hx; rw [htx]; exact hlen _)
    (fun x hx => by obtain ⟨tx, htx⟩ := mem_sortHashes_map hx; rw [htx]; exact hlen _)
    hflat
  exact perm_of_sortHashes_eq hsorted

/-- Replacing one transaction by one whose payload hashes differently
changes the multiset of per-transaction hashes. -/
theorem map_hash_set_not_perm (hash : Bytes → Bytes)
    {ts : List TransactionEnvelope} {i : Nat} (hi : i < ts.length)
    (tx' : TransactionEnvelope)
    (hne : hash tx'.tx_bytes ≠ hash (ts.get ⟨i, hi⟩).tx_bytes) :
    ¬ List.Perm ((ts.set i tx').map (fun tx => hash tx.tx_bytes))
        (ts.map (fun tx => hash tx.tx_bytes)) := by
  intro hperm
  have hmap : (ts.set i tx').map (fun tx => hash tx.tx_bytes)
      = (ts.map (fun tx => hash tx.tx_bytes)).set i (hash tx'.tx_bytes) := by
    simp [List.map_set]
  have hmi : i < (ts.map (fun tx => hash tx.tx_bytes)).length := by simpa using hi
  have hcount := count_set_add (hash tx'.tx_bytes)
    (hash (ts.get ⟨i, hi⟩).tx_bytes) hmi
  have hgetmap : (ts.map (fun tx => hash tx.tx_bytes)).get ⟨i, hmi⟩
      = hash (ts.get ⟨i, hi⟩).tx_bytes := by
    simp [List.get_eq_getElem]
  rw [hgetmap, if_pos rfl, if_neg hne] at hcount
  have hc := hperm.count_eq (hash (ts.get ⟨i, hi⟩).tx_bytes)
  rw [hmap] at hc
  omega

/-- Full description of a successful seal: the fields of the batch that
`create_batch` returns and the engine state it leaves behind. -/
theorem create_batch_spec (hash : Bytes → Bytes) (r : Bytes → Nat → Nat)
    (id : String) (nonce : Bytes) (now : Nat) (s : BatchingEngine)
    (b : TransactionBatch) (hb : (s.create_batch hash r id nonce now).1 = some b) :
    b.id = id ∧ b.nonce = nonce ∧ b.timestamp = now
    ∧ b.commitment = commitmentScheme hash s.pending_transactions nonce
    ∧ b.transactions
        = fisherYates r (create_seed_from_batch_id hash id) s.pending_transactions
    ∧ (s.create_batch hash r id nonce now).2
        = { s with pending_transactions := [], last_batch_time := now } := by
  unfold BatchingEngine.create_batch at hb ⊢
  by_cases hp : s.pending_transactions = []
  · rw [if_pos hp] at hb
    exact absurd hb (by simp)
  · rw [if_neg hp] at hb ⊢
    have hb' := Option.some.inj hb
    rw [← hb']
    exact ⟨rfl, rfl, rfl, rfl, rfl, rfl⟩

/-- The transactions of a sealed batch are a permutation of the drained
pending sequence, so the batch's own commitment can be recomputed from its
shuffled transaction order. -/
theorem create_batch_perm (hash : Bytes → Bytes) (r : Bytes → Nat → Nat)
    (id : String) (nonce : Bytes) (now : Nat) (s : BatchingEngine)
    (b : TransactionBatch) (hb : (s.create_batch hash r id nonce now).1 = some b) :
    List.Perm b.transactions s.pending_transactions := by
  obtain ⟨_, _, _, _, htx, _⟩ := create_batch_spec hash r id nonce now s b hb
  rw [htx]
  exact fisherYates_perm r _ _

/-- A sealed batch satisfies the batch invariant: its stored commitment is
the commitment scheme applied to its own (post-shuffle) transactions and
nonce. -/
theorem create_batch_commitment_self (hash : Bytes → Bytes) (r : Bytes → Nat → Nat)
    (id : String) (nonce : Bytes) (now : Nat) (s : BatchingEngine)
    (b : TransactionBatch) (hb : (s.create_batch hash r id nonce now).1 = some b) :
    b.commitment = commitmentScheme hash b.transactions b.nonce := by
  obtain ⟨_, hnonce, _, hcomm, _, _⟩ := create_batch_spec hash r id nonce now s b hb
  rw [hcomm, hnonce]
  exact (commitmentScheme_perm hash (create_batch_perm hash r id nonce now s b hb) nonce).symm

/-- The byte-string encoding is injective. -/
theorem encodeBytes_injective : Function.Injective encodeBytes := by
  intro a
  induction a with
  | nil =>
    intro b h
    cases b with
    | nil => rfl
    | cons y u =>
      exfalso
      simp only [encodeBytes, List.foldr_nil, List.foldr_cons] at h
      omega
  | cons x t ih =>
    intro b h
    cases b with
    | nil =>
      exfalso
      simp only [encodeBytes, List.foldr_nil, List.foldr_cons] at h
      omega
    | cons y u =>
      simp only [encodeBytes, List.foldr_cons] at h
      have hpair : Nat.pair x (encodeBytes t) = Nat.pair y (encodeBytes u) := by
        have : Nat.pair x (t.foldr (fun a acc => Nat.pair a acc + 1) 0)
            = Nat.pair y (u.foldr (fun a acc => Nat.pair a acc + 1) 0) := by omega
        exact this
      obtain ⟨hxy, htu⟩ := Nat.pair_eq_pair.1 hpair
      rw [hxy, ih htu]

/-- The length-32 injective hash really is injective. -/
theorem injHash_injective : Function.Injective injHash := by
  intro a b h
  exact encodeBytes_injective (List.head_eq_of_cons_eq h)

/-- All outputs of the injective hash have one fixed length. -/
theorem injHash_length : ∀ x, (injHash x).length = 1 := by
  intro x
  rfl

/-- A submission that returns at all appends exactly its envelope to the
pending sequence (the size-trigger branch never returns). -/
theorem add_transaction_ok_pending (hash : Bytes → Bytes) (r : Bytes → Nat → Nat)
    (id : String) (nonce : Bytes) (now : Nat) (tx : TransactionEnvelope)
    (s e' : BatchingEngine)
    (h : s.add_transaction hash r id nonce now tx = LockOutcome.ok e') :
    e'.pending_transactions = s.pending_transactions ++ [tx] := by
  unfold BatchingEngine.add_transaction BatchingEngine.create_batch_entry
    mutexAcquire at h
  by_cases hth : s.max_batch_size ≤ (s.pending_transactions ++ [tx]).length
  · rw [if_pos hth] at h
    simp at h
  · rw [if_neg hth] at h
    rw [← LockOutcome.ok.inj h]

/-! ### Claim theorems -/

/-- Claim C2: the specification requires that a submission which makes the
pending length reach `max_batch_size` triggers a seal synchronously within
that same submit operation.  The code instead calls `create_batch` while the
calling thread still holds the `pending_transactions` mutex guard
(main.rs lines 101-106); `create_batch` immediately re-acquires that mutex
(line 122), which for a non-reentrant `std::sync::Mutex` never returns.
Evaluated at the failing input (`max_batch_size = 1`, one submission of
payload `[1]`), the operation deadlocks and no seal happens. -/
theorem claim2_size_trigger_deadlocks :
    BatchingEngine.add_transaction hashW rW "s1" [7] 3
      (TransactionEnvelope.new [1] "e1") engC2 = LockOutcome.deadlock := by
  decide

/-- Claim C1: the specification's seal-atomicity invariant demands that no
successfully submitted envelope is ever lost.  Evaluated at the failing
input (`max_batch_size = 2`; submit `[1]`, submit `[2]`, then poll the time
trigger): the first submission succeeds, the second wedges on the re-locked
`pending_transactions` mutex, the whole engine is left unusable, and no
batch is ever sealed — one successful submission, zero envelopes across all
sealed batches, run stuck.  (The code also guards `pending_transactions` and
`last_batch_time` by two distinct mutexes rather than one domain.) -/
theorem claim1_submitted_envelope_lost :
    (runOps hashW rW
      [IngressOp.submit "e1" "s1" [7] 1 [1],
       IngressOp.submit "e2" "s2" [7] 2 [2],
       IngressOp.poll "p1" [8] 20 0] ingC1).1 = 1
    ∧ (((runOps hashW rW
      [IngressOp.submit "e1" "s1" [7] 1 [1],
       IngressOp.submit "e2" "s2" [7] 2 [2],
       IngressOp.poll "p1" [8] 20 0] ingC1).2.1.map
        (fun b => b.transactions.length)).sum = 0)
    ∧ (runOps hashW rW
      [IngressOp.submit "e1" "s1" [7] 1 [1],
       IngressOp.submit "e2" "s2" [7] 2 [2],
       IngressOp.poll "p1" [8] 20 0] ingC1).2.2 = true := by
  refine ⟨?_, ?_, ?_⟩ <;> decide

/-- Claim C6: the commitment is order-independent — for every transaction
sequence, every permutation of it, and every nonce, the commitment over the
permuted sequence equals the commitment over the original with the same
nonce. -/
theorem claim6_commitment_order_independence (hash : Bytes → Bytes)
    (ts ts' : List TransactionEnvelope) (nonce : Bytes)
    (h : List.Perm ts ts') :
    commitmentScheme hash ts nonce = commitmentScheme hash ts' nonce :=
  commitmentScheme_perm hash h nonce

/-- Witness for claim C6 at a concrete transposition. -/
theorem claim6_witness :
    commitmentScheme hashW [envW1, envW2] [4]
      = commitmentScheme hashW [envW2, envW1] [4] :=
  claim6_commitment_order_independence hashW [envW1, envW2] [envW2, envW1] [4]
    (by decide)

/-- Claim C8: `verify_reveal` on a batch whose id was never recorded returns
`false` — absence of a stored commitment is a hard failure, never treated as
valid (main.rs line 201). -/
theorem claim8_unknown_batch_never_verifies (hash : Bytes → Bytes)
    (ledger : List (String × Bytes)) (batch : TransactionBatch)
    (h : ∀ p ∈ ledger, p.1 ≠ batch.id) :
    verify_reveal hash ledger batch = false :=
  verify_reveal_of_no_entry hash ledger batch h

/-- Witness for claim C8 on a concrete unrecorded batch. -/
theorem claim8_witness :
    verify_reveal hashW [("a", [9])] bC8 = false :=
  claim8_unknown_batch_never_verifies hashW [("a", [9])] bC8 (by decide)

/-- Claim C7 counterexample: read literally ("time since last_seal_time
exceeds batch_time_window"), the claim is false — at elapsed time exactly
equal to the window (engine `engC7`, window 5, last seal 0, polled at
`now = 5`, one pending envelope), the strict reading demands no seal, but
`check_time_window` uses `>=` (main.rs line 114) and seals a batch. -/
theorem claim7_counterexample : ¬ claim7Statement hashW rW := by
  intro h
  have h2 := (h "b0" [5] 5 engC7 (by decide)).2 (by decide)
  exact absurd h2 (by decide)

/-- Claim C7 (amended): `check_time_window` triggers a seal and returns the
resulting batch exactly when the elapsed wall-clock time since
`last_batch_time` is at least (not strictly more than) `batch_time_window`
and pending is non-empty; the returned batch holds exactly the pending
envelopes (same multiset, true pending count) and `last_batch_time` is
reset to now; otherwise it returns none and leaves the state unchanged. -/
theorem claim7_time_trigger_amended (hash : Bytes → Bytes) (r : Bytes → Nat → Nat)
    (id : String) (nonce : Bytes) (now : Nat) (s : BatchingEngine)
    (hle : s.last_batch_time ≤ now) :
    (s.batch_time_window ≤ now - s.last_batch_time ∧ s.pending_transactions ≠ [] →
      ∃ b, (s.check_time_window hash r id nonce now).1 = some b
        ∧ List.Perm b.transactions s.pending_transactions
        ∧ b.transactions.length = s.pending_transactions.length
        ∧ (s.check_time_window hash r id nonce now).2
            = { s with pending_transactions := [], last_batch_time := now })
    ∧ (¬ (s.batch_time_window ≤ now - s.last_batch_time
          ∧ s.pending_transactions ≠ []) →
      s.check_time_window hash r id nonce now = (none, s)) := by
  constructor
  · rintro ⟨hcond, hne⟩
    unfold BatchingEngine.check_time_window BatchingEngine.create_batch
    rw [if_pos hcond, if_neg hne]
    exact ⟨_, rfl, fisherYates_perm r _ _, (fisherYates_perm r _ _).length_eq, rfl⟩
  · intro hncond
    unfold BatchingEngine.check_time_window
    by_cases hc : s.batch_time_window ≤ now - s.last_batch_time
    · rw [if_pos hc]
      have hp : s.pending_transactions = [] := by
        by_contra hne
        exact hncond ⟨hc, hne⟩
      unfold BatchingEngine.create_batch
      rw [if_pos hp]
    · rw [if_neg hc]

/-- Witness for the amended claim C7 at a concrete triggering input
(window 5, last seal 0, polled at 6 with one pending envelope). -/
theorem claim7_witness :
    ∃ b, (engC7.check_time_window hashW rW "b0" [5] 6).1 = some b
      ∧ List.Perm b.transactions engC7.pending_transactions
      ∧ b.transactions.length = engC7.pending_transactions.length
      ∧ (engC7.check_time_window hashW rW "b0" [5] 6).2
          = { engC7 with pending_transactions := [], last_batch_time := 6 } :=
  (claim7_time_trigger_amended hashW rW "b0" [5] 6 engC7 (by decide)).1 (by decide)

/-- Claim C10: the forwarding order of a sealed batch is a permutation of
the drained pending envelopes (same multiset, nothing added or dropped),
equal to the seeded Fisher-Yates shuffle under the seed derived by hashing
the batch id (main.rs lines 137-139 and 146-156); two seal executions with
the same batch id and the same drained envelope sequence produce identical
forwarding orders, whatever their nonces and clock readings. -/
theorem claim10_shuffle_deterministic_permutation (hash : Bytes → Bytes)
    (r : Bytes → Nat → Nat) (id : String) (nonce : Bytes) (now : Nat)
    (s : BatchingEngine) (b : TransactionBatch)
    (hb : (s.create_batch hash r id nonce now).1 = some b) :
    List.Perm b.transactions s.pending_transactions
    ∧ b.transactions
        = fisherYates r (create_seed_from_batch_id hash id) s.pending_transactions
    ∧ (∀ (nonce' : Bytes) (now' : Nat) (s' : BatchingEngine) (b' : TransactionBatch),
        s'.pending_transactions = s.pending_transactions →
        (s'.create_batch hash r id nonce' now').1 = some b' →
        b'.transactions = b.transactions) := by
  obtain ⟨-, -, -, -, htx, -⟩ := create_batch_spec hash r id nonce now s b hb
  refine ⟨create_batch_perm hash r id nonce now s b hb, htx, ?_⟩
  intro nonce' now' s' b' hpend hb'
  obtain ⟨-, -, -, -, htx', -⟩ := create_batch_spec hash r id nonce' now' s' b' hb'
  rw [htx', htx, hpend]

/-- Witness for claim C10: the batch sealed from `engW4` is a permutation of
its pending list, follows the derived seed, and the seal from `engW10`
(same id and pending, different nonce, clock and `last_batch_time`) yields
the identical forwarding order. -/
theorem claim10_witness :
    List.Perm bW5.transactions engW4.pending_transactions
    ∧ bW5.transactions
        = fisherYates rW (create_seed_from_batch_id hashW "b0")
            engW4.pending_transactions
    ∧ bW10.transactions = bW5.transactions := by
  have h := claim10_shuffle_deterministic_permutation hashW rW "b0" [5] 7 engW4 bW5
    (by decide)
  exact ⟨h.1, h.2.1, h.2.2 [6] 8 engW10 bW10 (by decide) (by decide)⟩

/-- Claim C5: the commitment field of every sealed batch equals the hash of
the concatenation of the sorted per-envelope payload digests with the nonce
appended last — stated over the batch's own (post-permutation) envelopes,
which is equivalent because the digests are sorted first; consequently the
commitment is independent of both submission order and forwarding order. -/
theorem claim5_commitment_structure (hash : Bytes → Bytes) (r : Bytes → Nat → Nat)
    (id : String) (nonce : Bytes) (now : Nat) (s : BatchingEngine)
    (b : TransactionBatch) (hb : (s.create_batch hash r id nonce now).1 = some b) :
    b.commitment
      = hash ((sortHashes (b.transactions.map (fun tx => hash tx.tx_bytes))).flatten
          ++ b.nonce)
    ∧ (∀ ts' : List TransactionEnvelope, List.Perm ts' b.transactions →
        commitmentScheme hash ts' b.nonce = b.commitment) := by
  have hself := create_batch_commitment_self hash r id nonce now s b hb
  constructor
  · exact hself
  · intro ts' hperm
    rw [hself]
    exact commitmentScheme_perm hash hperm b.nonce

/-- Witness for claim C5 on the concrete batch `bW5` and the reversed
transaction order. -/
theorem claim5_witness :
    bW5.commitment
      = hashW ((sortHashes (bW5.transactions.map (fun tx => hashW tx.tx_bytes))).flatten
          ++ bW5.nonce)
    ∧ commitmentScheme hashW [envW2, envW1] bW5.nonce = bW5.commitment := by
  have h := claim5_commitment_structure hashW rW "b0" [5] 7 engW4 bW5 (by decide)
  exact ⟨h.1, h.2 [envW2, envW1] (by decide)⟩

/-- Claim C9: `submit_transaction` fails with the `InvalidEnvelope` error
("Transaction bytes cannot be empty", main.rs lines 301-303) exactly when
the payload is empty; the rejection is synchronous and leaves the state
untouched, and a successful submission appends exactly the new envelope to
the pending sequence. -/
theorem claim9_submit_validation (hash : Bytes → Bytes) (r : Bytes → Nat → Nat)
    (envId sealId : String) (sealNonce : Bytes) (now : Nat) (p : Bytes)
    (s : PenumIngress) :
    ((∃ s₀, s.submit_transaction hash r envId sealId sealNonce now p
        = SubmitOutcome.rejected "Transaction bytes cannot be empty" s₀) ↔ p = [])
    ∧ (∀ m s₀, s.submit_transaction hash r envId sealId sealNonce now p
        = SubmitOutcome.rejected m s₀ → s₀ = s)
    ∧ (∀ m s', s.submit_transaction hash r envId sealId sealNonce now p
        = SubmitOutcome.accepted m s' →
        s'.engine.pending_transactions
          = s.engine.pending_transactions ++ [TransactionEnvelope.new p envId]) := by
  refine ⟨⟨?_, ?_⟩, ?_, ?_⟩
  · rintro ⟨s₀, h⟩
    by_contra hp
    unfold PenumIngress.submit_transaction at h
    rw [if_neg hp] at h
    cases hadd : BatchingEngine.add_transaction hash r sealId sealNonce now
        (TransactionEnvelope.new p envId) s.engine with
    | deadlock => rw [hadd] at h; exact absurd h (by simp)
    | ok e' => rw [hadd] at h; exact absurd h (by simp)
  · intro hp
    refine ⟨s, ?_⟩
    unfold PenumIngress.submit_transaction
    rw [if_pos hp]
  · intro m s₀ h
    unfold PenumIngress.submit_transaction at h
    by_cases hp : p = []
    · rw [if_pos hp] at h
      exact (SubmitOutcome.rejected.inj h).2.symm
    · rw [if_neg hp] at h
      cases hadd : BatchingEngine.add_transaction hash r sealId sealNonce now
          (TransactionEnvelope.new p envId) s.engine with
      | deadlock => rw [hadd] at h; exact absurd h (by simp)
      | ok e' => rw [hadd] at h; exact absurd h (by simp)
  · intro m s' h
    unfold PenumIngress.submit_transaction at h
    by_cases hp : p = []
    · rw [if_pos hp] at h
      exact absurd h (by simp)
    · rw [if_neg hp] at h
      cases hadd : BatchingEngine.add_transaction hash r sealId sealNonce now
          (TransactionEnvelope.new p envId) s.engine with
      | deadlock => rw [hadd] at h; exact absurd h (by simp)
      | ok e' =>
        rw [hadd] at h
        have hinj := (SubmitOutcome.accepted.inj h).2
        rw [← hinj]
        exact add_transaction_ok_pending hash r sealId sealNonce now
          (TransactionEnvelope.new p envId) s.engine e' hadd

/-- Witness for claim C9: the empty payload is rejected with the state
unchanged, and a concrete successful submission appends its envelope. -/
theorem claim9_witness :
    (∃ s₀, ingC9.submit_transaction hashW rW "e5" "s5" [7] 1 []
      = SubmitOutcome.rejected "Transaction bytes cannot be empty" s₀)
    ∧ ingC9'.engine.pending_transactions
        = ingC9.engine.pending_transactions ++ [TransactionEnvelope.new [5] "e5"] := by
  refine ⟨(claim9_submit_validation hashW rW "e5" "s5" [7] 1 [] ingC9).1.mpr rfl, ?_⟩
  exact (claim9_submit_validation hashW rW "e5" "s5" [7] 1 [5] ingC9).2.2
    "Transaction accepted for batching" ingC9' (by decide)

/-- Claim C3: `add_transaction` ignores `create_batch`'s return value
(main.rs line 106), so under the intended single-lock semantics a
size-triggered seal drains the pending sequence but its batch is discarded —
it is never recorded in the `CommitRevealPipeline`, never forwarded, and
never verified; only time-triggered batches flowing through
`process_batches` are committed, forwarded, and verified. -/
theorem claim3_size_triggered_batch_discarded (hash : Bytes → Bytes)
    (r : Bytes → Nat → Nat) (envId sealId : String) (sealNonce : Bytes)
    (now : Nat) (p : Bytes) (s : PenumIngress) (m : String) (s' : PenumIngress)
    (hok : s.submit_transaction_intended hash r envId sealId sealNonce now p
      = Except.ok (m, s')) :
    s'.commitments = s.commitments
    ∧ s'.forwarded = s.forwarded
    ∧ s'.verifications = s.verifications
    ∧ (s.engine.max_batch_size ≤ s.engine.pending_transactions.length + 1 →
        s'.engine.pending_transactions = [])
    ∧ (∀ (id : String) (nonce : Bytes) (now₂ latency : Nat)
        (b : TransactionBatch) (e₂ : BatchingEngine),
        s.engine.check_time_window hash r id nonce now₂ = (some b, e₂) →
        (s.process_batches hash r id nonce now₂ latency).commitments
          = s.commitments ++ [(b.id, b.commitment)]
        ∧ (s.process_batches hash r id nonce now₂ latency).forwarded
          = s.forwarded ++ [b]) := by
  unfold PenumIngress.submit_transaction_intended at hok
  by_cases hp : p = []
  · rw [if_pos hp] at hok
    exact absurd hok (by simp)
  · rw [if_neg hp] at hok
    obtain ⟨-, hs'⟩ := Prod.mk.inj (Except.ok.inj hok)
    rw [← hs']
    refine ⟨rfl, rfl, rfl, ?_, ?_⟩
    · intro hth
      show (BatchingEngine.add_transaction_intended hash r sealId sealNonce now
        (TransactionEnvelope.new p envId) s.engine).pending_transactions = []
      unfold BatchingEngine.add_transaction_intended
      rw [if_pos (by simpa using hth)]
      unfold BatchingEngine.create_batch
      rw [if_neg (by simp)]
    · intro id nonce now₂ latency b e₂ hctw
      unfold PenumIngress.process_batches
      rw [hctw]
      exact ⟨rfl, rfl⟩

/-- Witness for claim C3: submitting payload `[3]` into `ingC3` (one pending
envelope, threshold 2) seals and discards a batch under the intended
semantics — ledger, forwarded list and pending all as the claim states —
while the time trigger's batch `bC3` is committed and forwarded. -/
theorem claim3_witness :
    ingC3'.commitments = ingC3.commitments
    ∧ ingC3'.forwarded = ingC3.forwarded
    ∧ ingC3'.engine.pending_transactions = []
    ∧ (ingC3.process_batches hashW rW "b1" [6] 9 0).commitments
        = ingC3.commitments ++ [(bC3.id, bC3.commitment)]
    ∧ (ingC3.process_batches hashW rW "b1" [6] 9 0).forwarded
        = ingC3.forwarded ++ [bC3] := by
  have h := claim3_size_triggered_batch_discarded hashW rW "e9" "s9" [7] 3 [3]
    ingC3 "Transaction accepted for batching" ingC3' rfl
  have h5 := h.2.2.2.2 "b1" [6] 9 0 bC3
    (ingC3.engine.check_time_window hashW rW "b1" [6] 9).2 (by decide)
  exact ⟨h.1, h.2.1, h.2.2.2.1 (by decide), h5.1, h5.2⟩

/-- Claim C4: for every batch sealed by `create_batch` and then recorded via
`commit_batch`, `verify_reveal` returns true immediately — even though the
batch's envelopes are in post-permutation order — and mutating any payload
byte or the nonce before verifying makes it return false.  The tampering
half holds under the collision-freedom reading of SHA-256, stated as the
hypotheses that the hash function is injective and has fixed positive output
length. -/
theorem claim4_reveal_round_trip (hash : Bytes → Bytes) (r : Bytes → Nat → Nat)
    {n : Nat} (hinj : Function.Injective hash) (hn : 0 < n)
    (hlen : ∀ x, (hash x).length = n)
    (id : String) (nonce : Bytes) (now : Nat) (s : BatchingEngine)
    (ledger : List (String × Bytes)) (b : TransactionBatch)
    (hb : (s.create_batch hash r id nonce now).1 = some b)
    (hfresh : ∀ q ∈ ledger, q.1 ≠ b.id) :
    verify_reveal hash (commit_batch ledger b) b = true
    ∧ (∀ (i j c : Nat) (hi : i < b.transactions.length)
        (hj : j < (b.transactions.get ⟨i, hi⟩).tx_bytes.length),
        c ≠ (b.transactions.get ⟨i, hi⟩).tx_bytes.get ⟨j, hj⟩ →
        verify_reveal hash (commit_batch ledger b) (mutatePayloadByte b i j c)
          = false)
    ∧ (∀ nonce' : Bytes, nonce' ≠ b.nonce →
        verify_reveal hash (commit_batch ledger b) { b with nonce := nonce' }
          = false) := by
  have hself := create_batch_commitment_self hash r id nonce now s b hb
  refine ⟨?_, ?_, ?_⟩
  · show verify_reveal hash (ledger ++ [(b.id, b.commitment)]) b = true
    rw [verify_reveal_append hash ledger b b.commitment hfresh, hself]
    simp
  · intro i j c hi hj hc
    have hget : b.transactions.get? i = some (b.transactions.get ⟨i, hi⟩) :=
      List.get?_eq_get hi
    have hmb : mutatePayloadByte b i j c
        = { b with transactions :=
              (b.transactions.set i (setPayloadByte (b.transactions.get ⟨i, hi⟩) j c)) } := by
      unfold mutatePayloadByte
      rw [hget]
    rw [hmb]
    have happ : verify_reveal hash (ledger ++ [(b.id, b.commitment)])
        { b with transactions :=
            (b.transactions.set i (setPayloadByte (b.transactions.get ⟨i, hi⟩) j c)) }
        = decide (commitmentScheme hash
            (b.transactions.set i (setPayloadByte (b.transactions.get ⟨i, hi⟩) j c))
            b.nonce = b.commitment) :=
      verify_reveal_append hash ledger
        { b with transactions :=
            (b.transactions.set i (setPayloadByte (b.transactions.get ⟨i, hi⟩) j c)) }
        b.commitment (fun q hq => hfresh q hq)
    show verify_reveal hash (ledger ++ [(b.id, b.commitment)]) _ = false
    rw [happ]
    apply decide_eq_false
    intro heq
    rw [hself] at heq
    unfold commitmentScheme at heq
    have hinput := hinj heq
    have hperm := perm_of_commitmentInput_eq hash hn hlen hinput
    refine map_hash_set_not_perm hash hi
      (setPayloadByte (b.transactions.get ⟨i, hi⟩) j c) ?_ hperm
    intro hh
    have hbytes : (b.transactions.get ⟨i, hi⟩).tx_bytes.set j c
        = (b.transactions.get ⟨i, hi⟩).tx_bytes := hinj hh
    have h1 : ((b.transactions.get ⟨i, hi⟩).tx_bytes.set j c).get? j
        = (b.transactions.get ⟨i, hi⟩).tx_bytes.get? j := by
      rw [hbytes]
    rw [List.get?_eq_getElem?, List.get?_eq_getElem?,
      List.getElem?_set_self hj, List.getElem?_eq_getElem hj] at h1
    have hval : c = (b.transactions.get ⟨i, hi⟩).tx_bytes.get ⟨j, hj⟩ := by
      have := Option.some.inj h1
      simpa [List.get_eq_getElem] using this
    exact hc hval
  · intro nonce' hnon
    have happ : verify_reveal hash (ledger ++ [(b.id, b.commitment)])
        { b with nonce := nonce' }
        = decide (commitmentScheme hash b.transactions nonce' = b.commitment) :=
      verify_reveal_append hash ledger { b with nonce := nonce' } b.commitment
        (fun q hq => hfresh q hq)
    show verify_reveal hash (ledger ++ [(b.id, b.commitment)])
      { b with nonce := nonce' } = false
    rw [happ]
    apply decide_eq_false
    intro heq
    rw [hself] at heq
    unfold commitmentScheme at heq
    have hinput := hinj heq
    unfold commitmentInput at hinput
    exact hnon (List.append_cancel_left hinput)

/-- Witness for claim C4 on the concrete batch `bW4` sealed under the
injective hash: verification succeeds on the untouched batch and fails after
mutating payload byte 0 of transaction 0 or the nonce. -/
theorem claim4_witness :
    verify_reveal injHash (commit_batch [] bW4) bW4 = true
    ∧ verify_reveal injHash (commit_batch [] bW4) (mutatePayloadByte bW4 0 0 9)
        = false
    ∧ verify_reveal injHash (commit_batch [] bW4) { bW4 with nonce := [9] }
        = false := by
  obtain ⟨h1, h2, h3⟩ := claim4_reveal_round_trip injHash rW injHash_injective
    Nat.one_pos injHash_length "b0" [5] 7 engW4 [] bW4 (by decide) (by simp)
  exact ⟨h1, h2 0 0 9 (by decide) (by decide) (by decide), h3 [9] (by decide)⟩

end Penum
